import Mathlib

/-!
Verification of the vendored Singular Spectrum Analysis implementation
(`attrici/vendored/singularspectrumanalysis.py`).

The numerical pipeline is embedded over `ℚ` (exact arithmetic standing in
for floating point).  Parameter validation (`_check_params`) is embedded as
a total function on a model of the Python parameter values, distinguishing
integer-typed from float-typed numbers, because the source dispatches on
`isinstance`.
-/

/-- A Python numeric parameter: the source distinguishes `int` from `float`
via `isinstance`, so the model tags the value with its type. -/
inductive PyNum where
  | pint : ℤ → PyNum
  | pfloat : ℚ → PyNum
deriving DecidableEq

/-- Numeric value of a parameter (Python comparisons coerce int/float). -/
def PyNum.val : PyNum → ℚ
  | .pint n => (n : ℚ)
  | .pfloat q => q

/-- Whether the parameter is an `int` (`isinstance(x, (int, np.integer))`). -/
def PyNum.isInt : PyNum → Bool
  | .pint _ => true
  | .pfloat _ => false

/-- The `groups` parameter: `None`, the string `'auto'`, an integer, or a
list of lists of indices (the recognized shapes in `_check_params`). -/
inductive GroupsParam where
  | gnone : GroupsParam
  | gauto : GroupsParam
  | gint : ℤ → GroupsParam
  | glist : List (List PyNum) → GroupsParam
deriving DecidableEq

/-- Constructor-call parameters of `SingularSpectrumAnalysis`. -/
structure SSAParams where
  window_size : PyNum
  groups : GroupsParam
  lower_frequency_bound : PyNum
  lower_frequency_contribution : PyNum
deriving DecidableEq

/-- Result of `_check_params`: the derived window size on success, or the
kind of exception raised (`TypeError` vs `ValueError`). -/
inductive CheckResult where
  | ok : ℕ → CheckResult
  | typeError : CheckResult
  | valueError : CheckResult
deriving DecidableEq

/-- Window-size validation and derivation from `_check_params`:
an integer must satisfy `2 <= window_size <= n_timestamps`; a float must
satisfy `0 < window_size <= 1` and derives
`max(2, ceil(window_size * n_timestamps))`. -/
def checkWindow (ws : PyNum) (n_timestamps : ℕ) : CheckResult :=
  match ws with
  | .pint v =>
      if 2 ≤ v ∧ v ≤ (n_timestamps : ℤ) then .ok v.toNat else .valueError
  | .pfloat q =>
      if 0 < q ∧ q ≤ 1 then .ok (max 2 (Int.ceil (q * (n_timestamps : ℚ))).toNat)
      else .valueError

/-- `np.arange(self.window_size)` has this many elements (`arange` of a
float stop `x > 0` yields `ceil(x)` integers `0, 1, ...`). -/
def arangeSize : PyNum → ℕ
  | .pint v => v.toNat
  | .pfloat q => (Int.ceil q).toNat

/-- `e`'s value occurs in `np.arange(sz)`, i.e. `np.setdiff1d` would not
report it: the value equals some integer in `[0, sz)`. -/
def entryInRange (sz : ℕ) (e : PyNum) : Prop :=
  ∃ i ∈ Finset.range sz, (i : ℚ) = e.val

instance (sz : ℕ) (e : PyNum) : Decidable (entryInRange sz e) := by
  unfold entryInRange; infer_instance

/-- The integer-`groups` check: `1 <= self.groups <= self.window_size`,
a Python chained comparison against the *raw* `window_size` parameter
(int compared to int or float numerically). -/
def checkGroupsInt (k : ℤ) (ws : PyNum) : CheckResult :=
  if 1 ≤ (k : ℚ) ∧ (k : ℚ) ≤ ws.val then .ok 0 else .valueError

/-- The array-like-`groups` check: `np.concatenate(self.groups)` (raising
`ValueError` on an empty list), then `ValueError` unless every entry value
lies in `np.arange(self.window_size)` and every entry is an integer. -/
def checkGroupsList (gs : List (List PyNum)) (ws : PyNum) : CheckResult :=
  if gs = [] then .valueError
  else
    if (∀ g ∈ gs, ∀ e ∈ g, entryInRange (arangeSize ws) e) ∧
       (∀ g ∈ gs, ∀ e ∈ g, e.isInt = true)
    then .ok 0 else .valueError

/-- `_check_params`, in source order: window-size type/value check, groups
type check (all `GroupsParam` shapes are recognized), `lower_frequency_bound`
type then value check (strictly inside `(0, 0.5)`),
`lower_frequency_contribution` type then value check (strictly inside
`(0, 1)`), then the integer- or list-`groups` check.  Returns the derived
window size. -/
def checkParams (p : SSAParams) (n_timestamps : ℕ) : CheckResult :=
  match checkWindow p.window_size n_timestamps with
  | .typeError => .typeError
  | .valueError => .valueError
  | .ok w =>
    match p.lower_frequency_bound with
    | .pint _ => .typeError
    | .pfloat b =>
      if 0 < b ∧ b < 1/2 then
        match p.lower_frequency_contribution with
        | .pint _ => .typeError
        | .pfloat c =>
          if 0 < c ∧ c < 1 then
            match p.groups with
            | .gnone => .ok w
            | .gauto => .ok w
            | .gint k =>
                match checkGroupsInt k p.window_size with
                | .ok _ => .ok w
                | _ => .valueError
            | .glist gs =>
                match checkGroupsList gs p.window_size with
                | .ok _ => .ok w
                | _ => .valueError
          else .valueError
      else .valueError

/-- The raw `window_size` parameter passes its own validation. -/
def windowSizeOk : PyNum → ℕ → Prop
  | .pint v, n => 2 ≤ v ∧ v ≤ (n : ℤ)
  | .pfloat q, _ => 0 < q ∧ q ≤ 1

instance (ws : PyNum) (n : ℕ) : Decidable (windowSizeOk ws n) := by
  cases ws <;> (unfold windowSizeOk; infer_instance)

/-- The window size the source derives from the parameter. -/
def derivedWindow : PyNum → ℕ → ℕ
  | .pint v, _ => v.toNat
  | .pfloat q, n => max 2 (Int.ceil (q * (n : ℚ))).toNat

theorem checkWindow_ok (ws : PyNum) (n : ℕ) (h : windowSizeOk ws n) :
    checkWindow ws n = .ok (derivedWindow ws n) := by
  cases ws with
  | pint v => simp [checkWindow, windowSizeOk] at h ⊢; simp [h, derivedWindow]
  | pfloat q => simp [checkWindow, windowSizeOk] at h ⊢; simp [h, derivedWindow]

/-!
## The numerical pipeline (per sample)

All samples are processed independently, so the pipeline is embedded for a
single series `x : ℕ → ℚ` (row `i` of the input array); a matrix is a
function of its two indices, meaningful on `[0, rows) × [0, cols)`.
-/

/-- `_windowed_view(X, ..., window_step=1)` at sample row `x`:
entry `[k, j] = x[k + j]` (shape `(n_windows, window_size)`). -/
def windowedView (x : ℕ → ℚ) (k j : ℕ) : ℚ := x (k + j)

/-- `X_window`: the windowed view transposed (`axes=(0, 2, 1)`), the
trajectory matrix of shape `(window_size, n_windows)`. -/
def trajMatrix (x : ℕ → ℚ) (j k : ℕ) : ℚ := windowedView x k j

/-- `_outer_dot`: elementary matrix `j` is
`np.dot(np.outer(v[:, j], v[:, j]), X)`, i.e. entry `(r, c)` is
`∑ s, v[r, j] * v[s, j] * X[s, c]` with `s` ranging over the
`window_size` rows. -/
def outerDot (w : ℕ) (v X : ℕ → ℕ → ℚ) (j r c : ℕ) : ℚ :=
  ∑ s ∈ Finset.range w, v r j * v s j * X s c

/-- Row indices `r < a` contributing to `np.diag(Y, d)` of an `a × b`
matrix `Y`: those with column `r + d` inside `[0, b)`. -/
def npDiagIdx (a b : ℕ) (d : ℤ) : Finset ℕ :=
  (Finset.range a).filter fun r => 0 ≤ (r : ℤ) + d ∧ (r : ℤ) + d < (b : ℤ)

/-- `np.diag(Y, d).mean()` for an `a × b` matrix: the plain mean of the
diagonal entries `Y[r, r + d]`. -/
def npDiagMean (a b : ℕ) (Y : ℕ → ℕ → ℚ) (d : ℤ) : ℚ :=
  (∑ r ∈ npDiagIdx a b d, Y r ((r : ℤ) + d).toNat) / ((npDiagIdx a b d).card : ℚ)

/-- `_diagonal_averaging` at output position `t`, for one grouped matrix
`M` of shape `(window_size, n_windows)`: `transform` transposes `M`
(`axes=(0, 1, 3, 2)`) and sets `gap = window_size` when
`window_size >= n_windows`, otherwise `gap = n_windows`; the output is the
mean of `np.diag(X[i, group, :, ::-1], gap - j - k - 1)` where `j + k = t`
(the `indices` list enumerates each `t` in `[0, n_timestamps)` exactly
once, and only `j + k` matters).  Reversing the last axis turns column
`c` into column `gap - 1 - c`. -/
def diagAvgPos (w m : ℕ) (M : ℕ → ℕ → ℚ) (t : ℕ) : ℚ :=
  if m ≤ w then
    npDiagMean m w (fun r c => M (w - 1 - c) r) ((w : ℤ) - (t : ℤ) - 1)
  else
    npDiagMean w m (fun r c => M r (m - 1 - c)) ((m : ℤ) - (t : ℤ) - 1)

/-- The anti-diagonal `t` of a `w × m` matrix: all index pairs `(row, col)`
with `row + col = t`. -/
def antiDiag (w m t : ℕ) : Finset (ℕ × ℕ) :=
  (Finset.range w ×ˢ Finset.range m).filter fun p => p.1 + p.2 = t

/-- Diagonal averaging as the specification describes it: the plain mean
of the matrix entries on anti-diagonal `t`. -/
def diagAvgSpec (w m : ℕ) (M : ℕ → ℕ → ℚ) (t : ℕ) : ℚ :=
  (∑ p ∈ antiDiag w m t, M p.1 p.2) / ((antiDiag w m t).card : ℚ)

theorem mem_npDiagIdx {a b : ℕ} {d : ℤ} {r : ℕ} :
    r ∈ npDiagIdx a b d ↔ r < a ∧ 0 ≤ (r : ℤ) + d ∧ (r : ℤ) + d < (b : ℤ) := by
  simp [npDiagIdx]

theorem mem_antiDiag {w m t : ℕ} {p : ℕ × ℕ} :
    p ∈ antiDiag w m t ↔ p.1 < w ∧ p.2 < m ∧ p.1 + p.2 = t := by
  simp [antiDiag, and_assoc]

/-- The diagonal extracted by `_diagonal_averaging` (after the transpose,
column reversal, and `gap` offset) is exactly the anti-diagonal `t`:
the transform's per-position value is the plain mean over it. -/
theorem diagAvgPos_eq_spec (w m : ℕ) (M : ℕ → ℕ → ℚ) (t : ℕ) :
    diagAvgPos w m M t = diagAvgSpec w m M t := by
  unfold diagAvgPos npDiagMean diagAvgSpec
  by_cases hc : m ≤ w
  · rw [if_pos hc]
    have hsum : (∑ r ∈ npDiagIdx m w ((w : ℤ) - (t : ℤ) - 1),
        (fun r c => M (w - 1 - c) r) r (((r : ℤ) + ((w : ℤ) - (t : ℤ) - 1)).toNat))
        = ∑ p ∈ antiDiag w m t, M p.1 p.2 := by
      refine Finset.sum_nbij' (fun r => (t - r, r)) (fun p => p.2) ?_ ?_ ?_ ?_ ?_
      · intro r hr
        simp only [mem_npDiagIdx] at hr
        simp only [mem_antiDiag]
        omega
      · intro p hp
        simp only [mem_antiDiag] at hp
        simp only [mem_npDiagIdx]
        omega
      · intro r _
        rfl
      · intro p hp
        simp only [mem_antiDiag] at hp
        rcases p with ⟨p1, p2⟩
        simp only [Prod.mk.injEq]
        exact ⟨by omega, by trivial⟩
      · intro r hr
        simp only [mem_npDiagIdx] at hr
        simp only
        have hx : (((r : ℤ) + ((w : ℤ) - (t : ℤ) - 1)).toNat) = r + w - t - 1 := by omega
        rw [hx]
        have hy : w - 1 - (r + w - t - 1) = t - r := by omega
        rw [hy]
    have hcard : (npDiagIdx m w ((w : ℤ) - (t : ℤ) - 1)).card = (antiDiag w m t).card := by
      refine Finset.card_nbij' (fun r => (t - r, r)) (fun p => p.2) ?_ ?_ ?_ ?_
      · intro r hr
        simp only [mem_npDiagIdx] at hr
        simp only [mem_antiDiag]
        omega
      · intro p hp
        simp only [mem_antiDiag] at hp
        simp only [mem_npDiagIdx]
        omega
      · intro r _
        rfl
      · intro p hp
        simp only [mem_antiDiag] at hp
        rcases p with ⟨p1, p2⟩
        simp only [Prod.mk.injEq]
        exact ⟨by omega, by trivial⟩
    rw [hsum, hcard]
  · rw [if_neg hc]
    have hsum : (∑ r ∈ npDiagIdx w m ((m : ℤ) - (t : ℤ) - 1),
        (fun r c => M r (m - 1 - c)) r (((r : ℤ) + ((m : ℤ) - (t : ℤ) - 1)).toNat))
        = ∑ p ∈ antiDiag w m t, M p.1 p.2 := by
      refine Finset.sum_nbij' (fun r => (r, t - r)) (fun p => p.1) ?_ ?_ ?_ ?_ ?_
      · intro r hr
        simp only [mem_npDiagIdx] at hr
        simp only [mem_antiDiag]
        omega
      · intro p hp
        simp only [mem_antiDiag] at hp
        simp only [mem_npDiagIdx]
        omega
      · intro r _
        rfl
      · intro p hp
        simp only [mem_antiDiag] at hp
        rcases p with ⟨p1, p2⟩
        simp only [Prod.mk.injEq]
        exact ⟨by trivial, by omega⟩
      · intro r hr
        simp only [mem_npDiagIdx] at hr
        simp only
        have hx : (((r : ℤ) + ((m : ℤ) - (t : ℤ) - 1)).toNat) = r + m - t - 1 := by omega
        rw [hx]
        have hy : m - 1 - (r + m - t - 1) = t - r := by omega
        rw [hy]
    have hcard : (npDiagIdx w m ((m : ℤ) - (t : ℤ) - 1)).card = (antiDiag w m t).card := by
      refine Finset.card_nbij' (fun r => (r, t - r)) (fun p => p.1) ?_ ?_ ?_ ?_
      · intro r hr
        simp only [mem_npDiagIdx] at hr
        simp only [mem_antiDiag]
        omega
      · intro p hp
        simp only [mem_antiDiag] at hp
        simp only [mem_npDiagIdx]
        omega
      · intro r _
        rfl
      · intro p hp
        simp only [mem_antiDiag] at hp
        rcases p with ⟨p1, p2⟩
        simp only [Prod.mk.injEq]
        exact ⟨by trivial, by omega⟩
    rw [hsum, hcard]

/-- An orthogonal square matrix (`np.linalg.eigh` returns orthonormal
eigenvector columns; reversing column order keeps them orthonormal) also
has orthonormal rows. -/
theorem rows_orthonormal (w : ℕ) (v : ℕ → ℕ → ℚ)
    (h : ∀ r ∈ Finset.range w, ∀ s ∈ Finset.range w,
      ∑ j ∈ Finset.range w, v j r * v j s = if r = s then 1 else 0)
    (r s : ℕ) (hr : r < w) (hs : s < w) :
    ∑ j ∈ Finset.range w, v r j * v s j = if r = s then 1 else 0 := by
  set V : Matrix (Fin w) (Fin w) ℚ := Matrix.of fun i j => v i.val j.val with hV
  have h1 : V.transpose * V = 1 := by
    ext i j
    rw [Matrix.mul_apply, Matrix.one_apply]
    have hh := h i.val (Finset.mem_range.mpr i.isLt) j.val (Finset.mem_range.mpr j.isLt)
    calc (∑ k, V.transpose i k * V k j)
        = ∑ k : Fin w, v k.val i.val * v k.val j.val := rfl
      _ = ∑ k ∈ Finset.range w, v k i.val * v k j.val :=
          Fin.sum_univ_eq_sum_range (fun k => v k i.val * v k j.val) w
      _ = if (i : ℕ) = (j : ℕ) then 1 else 0 := hh
      _ = if i = j then 1 else 0 := by simp [Fin.val_eq_val]
  have h2 : V * V.transpose = 1 := Matrix.mul_eq_one_comm.mp h1
  have h3 := congrArg (fun A => A ⟨r, hr⟩ ⟨s, hs⟩) h2
  simp only at h3
  rw [Matrix.mul_apply, Matrix.one_apply] at h3
  calc (∑ j ∈ Finset.range w, v r j * v s j)
      = ∑ k : Fin w, v r k.val * v s k.val :=
        (Fin.sum_univ_eq_sum_range (fun k => v r k * v s k) w).symm
    _ = ∑ k, V ⟨r, hr⟩ k * V.transpose k ⟨s, hs⟩ := rfl
    _ = if (⟨r, hr⟩ : Fin w) = ⟨s, hs⟩ then 1 else 0 := h3
    _ = if r = s then 1 else 0 := by simp [Fin.mk.injEq]

/-- With orthonormal rows of `v`, the `window_size` elementary matrices of
`_outer_dot` sum back to the matrix `X` they were built from. -/
theorem sum_outerDot (w : ℕ) (v X : ℕ → ℕ → ℚ)
    (hrow : ∀ r s : ℕ, r < w → s < w →
      ∑ j ∈ Finset.range w, v r j * v s j = if r = s then 1 else 0)
    {r : ℕ} (hr : r < w) (c : ℕ) :
    ∑ g ∈ Finset.range w, outerDot w v X g r c = X r c := by
  unfold outerDot
  rw [Finset.sum_comm]
  have hstep : ∀ s ∈ Finset.range w,
      (∑ g ∈ Finset.range w, v r g * v s g * X s c)
        = if r = s then X s c else 0 := by
    intro s hs
    rw [← Finset.sum_mul, hrow r s hr (Finset.mem_range.mp hs)]
    split <;> ring
  rw [Finset.sum_congr rfl hstep, Finset.sum_ite_eq]
  simp [Finset.mem_range.mpr hr]

/-- Size of the anti-diagonal `t` of a `w × m` matrix. -/
theorem antiDiag_card (w m t : ℕ) :
    (antiDiag w m t).card = min w (t + 1) - (t + 1 - m) := by
  have h : (antiDiag w m t).card = (Finset.Ico (t + 1 - m) (min w (t + 1))).card := by
    refine Finset.card_nbij' (fun p => p.1) (fun r => (r, t - r)) ?_ ?_ ?_ ?_
    · intro p hp
      simp only [mem_antiDiag] at hp
      simp only [Finset.mem_Ico]
      omega
    · intro r hr
      simp only [Finset.mem_Ico] at hr
      simp only [mem_antiDiag]
      omega
    · intro p hp
      simp only [mem_antiDiag] at hp
      rcases p with ⟨p1, p2⟩
      simp only [Prod.mk.injEq]
      exact ⟨by trivial, by omega⟩
    · intro r _
      rfl
  rw [h, Nat.card_Ico]

/-- C1: For every series `x`, every valid window size `2 ≤ w ≤ n`, and
every orthogonal eigenvector matrix `v` (as `np.linalg.eigh` returns for
the symmetric lagged-covariance matrix), the `groups=None` transform's
component series, summed over the group axis, reconstruct the input
exactly (the exact-arithmetic counterpart of "up to floating-point
rounding"). -/
theorem ssa_reconstruction_groups_none (n w : ℕ) (x : ℕ → ℚ) (v : ℕ → ℕ → ℚ)
    (hw : 2 ≤ w) (hwn : w ≤ n)
    (horth : ∀ r ∈ Finset.range w, ∀ s ∈ Finset.range w,
      ∑ j ∈ Finset.range w, v j r * v j s = if r = s then 1 else 0)
    (t : ℕ) (ht : t < n) :
    ∑ g ∈ Finset.range w,
        diagAvgPos w (n - w + 1) (outerDot w v (trajMatrix x) g) t = x t := by
  set m := n - w + 1 with hm
  have h1 : ∀ g ∈ Finset.range w,
      diagAvgPos w m (outerDot w v (trajMatrix x) g) t
        = diagAvgSpec w m (outerDot w v (trajMatrix x) g) t :=
    fun g _ => diagAvgPos_eq_spec w m (outerDot w v (trajMatrix x) g) t
  rw [Finset.sum_congr rfl h1]
  unfold diagAvgSpec
  rw [← Finset.sum_div, Finset.sum_comm]
  have h2 : ∀ p ∈ antiDiag w m t,
      (∑ g ∈ Finset.range w, outerDot w v (trajMatrix x) g p.1 p.2) = x t := by
    intro p hp
    simp only [mem_antiDiag] at hp
    rw [sum_outerDot w v (trajMatrix x) (rows_orthonormal w v horth) hp.1 p.2]
    unfold trajMatrix windowedView
    have : p.2 + p.1 = t := by omega
    rw [this]
  rw [Finset.sum_congr rfl h2, Finset.sum_const, nsmul_eq_mul]
  have hcard : (antiDiag w m t).card ≠ 0 := by
    rw [antiDiag_card]
    omega
  exact mul_div_cancel_left₀ (x t) (by exact_mod_cast hcard)

/-- A concrete input series `1, 2, 3, ...` for the reconstruction witness. -/
def xEx : ℕ → ℚ := fun t => (t : ℚ) + 1

/-- A concrete orthogonal matrix (the identity) for the witness. -/
def vEx : ℕ → ℕ → ℚ := fun r j => if r = j then 1 else 0

theorem ssa_reconstruction_groups_none_witness :
    2 ≤ 2 ∧ 2 ≤ 3 ∧ 1 < 3 ∧
    (∀ r ∈ Finset.range 2, ∀ s ∈ Finset.range 2,
      ∑ j ∈ Finset.range 2, vEx j r * vEx j s = if r = s then 1 else 0) ∧
    ∑ g ∈ Finset.range 2,
        diagAvgPos 2 (3 - 2 + 1) (outerDot 2 vEx (trajMatrix xEx) g) 1 = xEx 1 := by
  have horth : ∀ r ∈ Finset.range 2, ∀ s ∈ Finset.range 2,
      ∑ j ∈ Finset.range 2, vEx j r * vEx j s = if r = s then 1 else 0 := by
    intro r hr s hs
    fin_cases hr <;> fin_cases hs <;> simp [vEx, Finset.sum_range_succ]
  exact ⟨by norm_num, by norm_num, by norm_num, horth,
    ssa_reconstruction_groups_none 3 2 xEx vEx (by norm_num) (by norm_num) horth 1 (by norm_num)⟩

/-- C4: the diagonal averager (with its transpose of the longer axis and
`gap = max(window_size, n_windows)`) produces at every output position `t`
the plain mean of exactly the matrix entries `(row, col)` with
`row + col = t`; anti-diagonals at the two edges hold a single cell while
the widest anti-diagonal holds `min w m` cells, so edge positions average
fewer cells than interior positions. -/
theorem diagonal_averaging_anti_diagonal_mean (w m : ℕ) (M : ℕ → ℕ → ℚ) (t : ℕ)
    (hw : 1 ≤ w) (hm : 1 ≤ m) :
    diagAvgPos w m M t = diagAvgSpec w m M t ∧
    (antiDiag w m 0).card = 1 ∧
    (antiDiag w m (w + m - 2)).card = 1 ∧
    (antiDiag w m (min w m - 1)).card = min w m := by
  refine ⟨diagAvgPos_eq_spec w m M t, ?_, ?_, ?_⟩ <;> (rw [antiDiag_card]; omega)

theorem diagonal_averaging_anti_diagonal_mean_witness :
    1 ≤ 2 ∧ 1 ≤ 3 ∧
    (diagAvgPos 2 3 (fun r c => (10 * r + c : ℚ)) 2
        = diagAvgSpec 2 3 (fun r c => (10 * r + c : ℚ)) 2 ∧
      (antiDiag 2 3 0).card = 1 ∧
      (antiDiag 2 3 (2 + 3 - 2)).card = 1 ∧
      (antiDiag 2 3 (min 2 3 - 1)).card = min 2 3) :=
  ⟨by norm_num, by norm_num,
    diagonal_averaging_anti_diagonal_mean 2 3 (fun r c => (10 * r + c : ℚ)) 2
      (by norm_num) (by norm_num)⟩

/-!
## Output shape (`transform`'s return value)
-/

/-- `grouping_size` as computed by `_grouping` for each policy:
`window_size` for `None`, `3` for `'auto'`,
`len(np.linspace(0, w, groups + 1)) - 1 = groups` for an integer, and
`len(groups)` for array-like. -/
def groupingSize (groups : GroupsParam) (w : ℕ) : ℕ :=
  match groups with
  | .gnone => w
  | .gauto => 3
  | .gint k => k.toNat
  | .glist gs => gs.length

/-- `_diagonal_averaging` allocates its result as
`np.empty((n_samples, grouping_size, n_timestamps))`. -/
def diagAveragingShape (n_samples g n_timestamps : ℕ) : List ℕ :=
  [n_samples, g, n_timestamps]

/-- `np.squeeze`: removes every axis of length 1. -/
def npSqueeze (shape : List ℕ) : List ℕ := shape.filter fun d => d != 1

/-- Shape of `transform`'s return value `np.squeeze(X_ssa)`. -/
def transformShape (n_samples g n_timestamps : ℕ) : List ℕ :=
  npSqueeze (diagAveragingShape n_samples g n_timestamps)

/-- C2 counterexample: a single-sample series of length 20 with
`window_size=5` and `groups=None` does NOT produce output of shape
`(1, 5, 20)` — `np.squeeze` also removes the size-1 sample axis. -/
theorem transform_shape_counterexample :
    transformShape 1 (groupingSize .gnone 5) 20 ≠ [1, 5, 20] := by decide

/-- C2 amended: the pre-squeeze output shape is
`(n_samples, g, n_timestamps)` and `np.squeeze` removes every length-1
axis — the group axis iff `g = 1`, but likewise the sample axis iff
`n_samples = 1` — so the single-sample example yields shape `(5, 20)`. -/
theorem transform_shape_amended (n_samples g n_timestamps : ℕ) :
    diagAveragingShape n_samples g n_timestamps = [n_samples, g, n_timestamps] ∧
    transformShape n_samples g n_timestamps
      = (if n_samples = 1 then [] else [n_samples])
        ++ (if g = 1 then [] else [g])
        ++ (if n_timestamps = 1 then [] else [n_timestamps]) ∧
    transformShape 1 (groupingSize .gnone 5) 20 = [5, 20] := by
  refine ⟨rfl, ?_, by decide⟩
  by_cases h1 : n_samples = 1 <;> by_cases h2 : g = 1 <;> by_cases h3 : n_timestamps = 1 <;>
    simp [transformShape, npSqueeze, diagAveragingShape, List.filter_cons, h1, h2, h3]

/-!
## Integer grouping (`groups = k`)
-/

/-- `np.linspace(0, w, k + 1)[i]`, exactly `i * w / k`. -/
def linspaceVal (w k i : ℕ) : ℚ := (i : ℚ) * (w : ℚ) / (k : ℚ)

/-- Group boundary `i`:
`np.linspace(0, window_size, groups + 1).astype('int64')[i]` —
`astype('int64')` truncates toward zero, which is the floor for these
nonnegative values. -/
def groupBoundary (w k i : ℕ) : ℤ := Int.floor (linspaceVal w k i)

/-- The elementary-matrix index range of group `i`: the slice bounds
`grouping[i], grouping[i+1]` of `X[:, j:k]`. -/
def groupRange (w k i : ℕ) : Finset ℕ :=
  Finset.Ico (groupBoundary w k i).toNat (groupBoundary w k (i + 1)).toNat

/-- Integer-`groups` grouping: group `i` is `X[:, j:k].sum(axis=1)`
(`X` is the stack of elementary matrices, indexed elementary × row ×
column). -/
def intGrouping (w k : ℕ) (X : ℕ → ℕ → ℕ → ℚ) (i r c : ℕ) : ℚ :=
  ∑ j ∈ groupRange w k i, X j r c

theorem groupBoundary_eq (w k i : ℕ) (hk : 0 < k) :
    groupBoundary w k i = ((i * w / k : ℕ) : ℤ) := by
  unfold groupBoundary linspaceVal
  have hkq : (0 : ℚ) < (k : ℚ) := by exact_mod_cast hk
  rw [Int.floor_eq_iff]
  constructor
  · rw [le_div_iff₀ hkq]
    have h := Nat.div_mul_le_self (i * w) k
    push_cast
    exact_mod_cast h
  · rw [div_lt_iff₀ hkq]
    have h : i * w < (i * w / k + 1) * k := by
      have h1 := Nat.div_add_mod (i * w) k
      have h2 := Nat.mod_lt (i * w) hk
      calc i * w = k * (i * w / k) + i * w % k := h1.symm
        _ < k * (i * w / k) + k := by omega
        _ = (i * w / k + 1) * k := by ring
    push_cast
    exact_mod_cast h

theorem groupRange_eq (w k i : ℕ) (hk : 0 < k) :
    groupRange w k i = Finset.Ico (i * w / k) ((i + 1) * w / k) := by
  unfold groupRange
  rw [groupBoundary_eq w k i hk, groupBoundary_eq w k (i + 1) hk,
    Int.toNat_natCast, Int.toNat_natCast]

theorem groupBoundary_mono (w k : ℕ) (_hk : 0 < k) {i j : ℕ} (hij : i ≤ j) :
    i * w / k ≤ j * w / k :=
  Nat.div_le_div_right (Nat.mul_le_mul_right w hij)

theorem groupBoundary_strict_mono (w k i : ℕ) (hk : 0 < k) (hkw : k ≤ w) :
    i * w / k + 1 ≤ (i + 1) * w / k := by
  have h1 : i * w + k ≤ (i + 1) * w := by
    have : i * w + k ≤ i * w + w := by omega
    calc i * w + k ≤ i * w + w := this
      _ = (i + 1) * w := by ring
  calc i * w / k + 1 = (i * w + k) / k := (Nat.add_div_right _ hk).symm
    _ ≤ (i + 1) * w / k := Nat.div_le_div_right h1

theorem groupRanges_cover (w k : ℕ) (hk : 0 < k) :
    ∀ j ≤ k, ((Finset.range j).biUnion fun i => groupRange w k i)
      = Finset.range (j * w / k) := by
  intro j hj
  induction j with
  | zero => simp
  | succ jj ih =>
      rw [Finset.range_succ, Finset.biUnion_insert, ih (by omega),
        groupRange_eq w k jj hk, Finset.range_eq_Ico, Finset.union_comm]
      exact Finset.Ico_union_Ico_eq_Ico (Nat.zero_le _)
        (groupBoundary_mono w k hk (by omega))

theorem groupRange_disjoint_of_lt (w k : ℕ) (hk : 0 < k) {i1 i2 : ℕ}
    (h12 : i1 < i2) : Disjoint (groupRange w k i1) (groupRange w k i2) := by
  rw [groupRange_eq w k i1 hk, groupRange_eq w k i2 hk, Finset.disjoint_left]
  intro a ha hb
  rw [Finset.mem_Ico] at ha hb
  have h1 : (i1 + 1) * w / k ≤ i2 * w / k := groupBoundary_mono w k hk (by omega)
  omega

/-- C6: for every integer grouping parameter `1 ≤ k ≤ window_size`, the
`k` index ranges of the returned groups are pairwise disjoint and their
union is exactly `[0, window_size)`, so every elementary matrix
contributes to exactly one group. -/
theorem integer_grouping_partition (w k : ℕ) (hk1 : 1 ≤ k) (_hkw : k ≤ w) :
    ((Finset.range k).biUnion fun i => groupRange w k i) = Finset.range w ∧
    ∀ i1 ∈ Finset.range k, ∀ i2 ∈ Finset.range k, i1 ≠ i2 →
      Disjoint (groupRange w k i1) (groupRange w k i2) := by
  have hk : 0 < k := hk1
  constructor
  · rw [groupRanges_cover w k hk k le_rfl, Nat.mul_div_cancel_left w hk]
  · intro i1 _ i2 _ hne
    rcases lt_or_gt_of_ne hne with h | h
    · exact groupRange_disjoint_of_lt w k hk h
    · exact (groupRange_disjoint_of_lt w k hk h).symm

theorem integer_grouping_partition_witness :
    (1 ≤ 3 ∧ 3 ≤ 5) ∧
    (((Finset.range 3).biUnion fun i => groupRange 5 3 i) = Finset.range 5 ∧
      ∀ i1 ∈ Finset.range 3, ∀ i2 ∈ Finset.range 3, i1 ≠ i2 →
        Disjoint (groupRange 5 3 i1) (groupRange 5 3 i2)) :=
  ⟨⟨by norm_num, by norm_num⟩, integer_grouping_partition 5 3 (by norm_num) (by norm_num)⟩

/-- C5 counterexample: at `window_size = 5`, `groups = 3` the second
boundary computed by the source is `floor(5/3) = 1`, not
`round(5/3) = 2` — `astype('int64')` truncates, it does not round. -/
theorem integer_grouping_round_counterexample :
    groupBoundary 5 3 1 = 1 ∧ round (linspaceVal 5 3 1) = 2 ∧
    groupBoundary 5 3 1 ≠ round (linspaceVal 5 3 1) := by
  refine ⟨?_, ?_, ?_⟩ <;> norm_num [groupBoundary, linspaceVal, round_eq]

/-- C5 amended: for `1 ≤ k ≤ window_size` the index set `[0, w)` is
partitioned into `k` contiguous nonempty ranges whose boundaries are the
*floor* (truncation toward zero) of `linspace(0, w, k + 1)`, running from
`0` to `w` and strictly increasing; the elementary matrices within each
range are summed to form that group's matrix. -/
theorem integer_grouping_boundaries_amended (w k : ℕ) (hk1 : 1 ≤ k) (hkw : k ≤ w) :
    groupBoundary w k 0 = 0 ∧
    groupBoundary w k k = (w : ℤ) ∧
    (∀ i, groupBoundary w k i = Int.floor (linspaceVal w k i)) ∧
    (∀ i, (groupBoundary w k i).toNat < (groupBoundary w k (i + 1)).toNat) ∧
    (∀ X : ℕ → ℕ → ℕ → ℚ, ∀ i r c,
      intGrouping w k X i r c
        = ∑ j ∈ Finset.Ico (groupBoundary w k i).toNat
            ((groupBoundary w k (i + 1)).toNat), X j r c) := by
  have hk : 0 < k := hk1
  refine ⟨?_, ?_, fun i => rfl, ?_, fun X i r c => rfl⟩
  · rw [groupBoundary_eq w k 0 hk]
    simp
  · rw [groupBoundary_eq w k k hk, Nat.mul_div_cancel_left w hk]
  · intro i
    rw [groupBoundary_eq w k i hk, groupBoundary_eq w k (i + 1) hk,
      Int.toNat_natCast, Int.toNat_natCast]
    exact groupBoundary_strict_mono w k i hk hkw

theorem integer_grouping_boundaries_amended_witness :
    (1 ≤ 3 ∧ 3 ≤ 5) ∧
    (groupBoundary 5 3 0 = 0 ∧
      groupBoundary 5 3 3 = (5 : ℤ) ∧
      (∀ i, groupBoundary 5 3 i = Int.floor (linspaceVal 5 3 i)) ∧
      (∀ i, (groupBoundary 5 3 i).toNat < (groupBoundary 5 3 (i + 1)).toNat) ∧
      (∀ X : ℕ → ℕ → ℕ → ℚ, ∀ i r c,
        intGrouping 5 3 X i r c
          = ∑ j ∈ Finset.Ico (groupBoundary 5 3 i).toNat
              ((groupBoundary 5 3 (i + 1)).toNat), X j r c)) :=
  ⟨⟨by norm_num, by norm_num⟩,
    integer_grouping_boundaries_amended 5 3 (by norm_num) (by norm_num)⟩

/-!
## Automatic grouping (`groups = 'auto'`)

The raw one-sided periodogram values `|np.fft.rfft(v, axis=1,
norm='ortho')| ** 2` are abstracted as a matrix `P` (frequency bin `k` in
`[0, w//2]` × eigenvector column `j`); the doubling, cumulative sum,
thresholds and masks below follow `_grouping` on them.
-/

/-- The bin doubling `_grouping` applies to the periodogram:
`Pxx[:, 1:-1, :] *= 2` when `Pxx.shape[-1]` — the number of eigenvector
columns, which equals `window_size` — is even, else `Pxx[:, 1:, :] *= 2`.
The frequency axis has `w // 2 + 1` bins, so slice `1:-1` covers bins
`1 .. w//2 - 1` and slice `1:` covers bins `1 .. w//2`. -/
def pxxDoubled (w : ℕ) (P : ℕ → ℕ → ℚ) (k j : ℕ) : ℚ :=
  if w % 2 = 0 then
    if 1 ≤ k ∧ k ≤ w / 2 - 1 then 2 * P k j else P k j
  else
    if 1 ≤ k then 2 * P k j else P k j

/-- `np.cumsum(Pxx, axis=1)` at frequency index `k` (inclusive). -/
def pxxCumsum (w : ℕ) (P : ℕ → ℕ → ℚ) (k j : ℕ) : ℚ :=
  ∑ i ∈ Finset.range (k + 1), pxxDoubled w P i j

/-- `idx_trend = np.where(f < self.lower_frequency_bound)[0][-1]` with
`f = np.arange(0, 1 + window_size // 2) / window_size`. -/
def idxTrend (w : ℕ) (b : ℚ) : ℕ :=
  ((((List.range (w / 2 + 1)).filter
    fun (i : ℕ) => decide ((i : ℚ) / (w : ℚ) < b)).getLast?).getD 0)

/-- `idx_resid = Pxx_cumsum.shape[1] // 2`. -/
def idxResid (w : ℕ) : ℕ := (w / 2 + 1) / 2

/-- `trend = Pxx_cumsum[:, idx_trend, :] / Pxx_cumsum[:, -1, :] > c`
(the last frequency bin is `w // 2`). -/
def trendMask (w : ℕ) (P : ℕ → ℕ → ℚ) (b c : ℚ) (j : ℕ) : Prop :=
  pxxCumsum w P (idxTrend w b) j / pxxCumsum w P (w / 2) j > c

/-- `resid = Pxx_cumsum[:, idx_resid, :] / Pxx_cumsum[:, -1, :] < c`. -/
def residMask (w : ℕ) (P : ℕ → ℕ → ℚ) (c : ℚ) (j : ℕ) : Prop :=
  pxxCumsum w P (idxResid w) j / pxxCumsum w P (w / 2) j < c

/-- `season = np.logical_and(~trend, ~resid)`. -/
def seasonMask (w : ℕ) (P : ℕ → ℕ → ℚ) (b c : ℚ) (j : ℕ) : Prop :=
  ¬trendMask w P b c j ∧ ¬residMask w P c j

/-- C3: for every frequency bin `k ≤ w//2` and eigenvector `j`, the
doubling leaves exactly the DC bin and — when `window_size` is even — the
Nyquist bin `w//2` untouched and doubles every other bin; the eigenvector
is trend iff cumulative (doubled) power through `idx_trend` over total
power exceeds `c`, residual iff cumulative power through `idx_resid` over
total power is below `c`, and seasonal exactly when neither. -/
theorem auto_grouping_classification (w k j : ℕ) (P : ℕ → ℕ → ℚ) (b c : ℚ)
    (hk : k ≤ w / 2) :
    pxxDoubled w P k j
      = (if k = 0 ∨ (w % 2 = 0 ∧ k = w / 2) then P k j else 2 * P k j) ∧
    (trendMask w P b c j ↔
      (∑ i ∈ Finset.range (idxTrend w b + 1), pxxDoubled w P i j)
        / (∑ i ∈ Finset.range (w / 2 + 1), pxxDoubled w P i j) > c) ∧
    (residMask w P c j ↔
      (∑ i ∈ Finset.range (idxResid w + 1), pxxDoubled w P i j)
        / (∑ i ∈ Finset.range (w / 2 + 1), pxxDoubled w P i j) < c) ∧
    (seasonMask w P b c j ↔ ¬trendMask w P b c j ∧ ¬residMask w P c j) := by
  refine ⟨?_, Iff.rfl, Iff.rfl, Iff.rfl⟩
  unfold pxxDoubled
  by_cases he : w % 2 = 0
  · by_cases h0 : k = 0
    · rw [if_pos he, if_neg (by omega : ¬(1 ≤ k ∧ k ≤ w / 2 - 1)),
        if_pos (Or.inl h0)]
    · by_cases hhalf : k = w / 2
      · rw [if_pos he, if_neg (by omega : ¬(1 ≤ k ∧ k ≤ w / 2 - 1)),
          if_pos (Or.inr ⟨he, hhalf⟩)]
      · rw [if_pos he, if_pos (by omega : 1 ≤ k ∧ k ≤ w / 2 - 1),
          if_neg (by omega : ¬(k = 0 ∨ (w % 2 = 0 ∧ k = w / 2)))]
  · by_cases h0 : k = 0
    · rw [if_neg he, if_neg (by omega : ¬1 ≤ k), if_pos (Or.inl h0)]
    · rw [if_neg he, if_pos (by omega : 1 ≤ k),
        if_neg (by omega : ¬(k = 0 ∨ (w % 2 = 0 ∧ k = w / 2)))]

theorem auto_grouping_classification_witness :
    2 ≤ 4 / 2 ∧
    (pxxDoubled 4 (fun i j => (i + j + 1 : ℚ)) 2 0
        = (if 2 = 0 ∨ (4 % 2 = 0 ∧ 2 = 4 / 2)
          then (fun i j => (i + j + 1 : ℚ)) 2 0
          else 2 * (fun i j => (i + j + 1 : ℚ)) 2 0) ∧
      (trendMask 4 (fun i j => (i + j + 1 : ℚ)) (3/40) (17/20) 0 ↔
        (∑ i ∈ Finset.range (idxTrend 4 (3/40) + 1),
            pxxDoubled 4 (fun i j => (i + j + 1 : ℚ)) i 0)
          / (∑ i ∈ Finset.range (4 / 2 + 1),
            pxxDoubled 4 (fun i j => (i + j + 1 : ℚ)) i 0) > 17/20) ∧
      (residMask 4 (fun i j => (i + j + 1 : ℚ)) (17/20) 0 ↔
        (∑ i ∈ Finset.range (idxResid 4 + 1),
            pxxDoubled 4 (fun i j => (i + j + 1 : ℚ)) i 0)
          / (∑ i ∈ Finset.range (4 / 2 + 1),
            pxxDoubled 4 (fun i j => (i + j + 1 : ℚ)) i 0) < 17/20) ∧
      (seasonMask 4 (fun i j => (i + j + 1 : ℚ)) (3/40) (17/20) 0 ↔
        ¬trendMask 4 (fun i j => (i + j + 1 : ℚ)) (3/40) (17/20) 0 ∧
        ¬residMask 4 (fun i j => (i + j + 1 : ℚ)) (17/20) 0)) :=
  ⟨by norm_num,
    auto_grouping_classification 4 2 0 (fun i j => (i + j + 1 : ℚ)) (3/40) (17/20)
      (by norm_num)⟩

/-!
## Parameter-validation claims
-/

theorem checkParams_gint (ws : PyNum) (n : ℕ) (k : ℤ) (hws : windowSizeOk ws n) :
    checkParams ⟨ws, .gint k, .pfloat (3/40), .pfloat (17/20)⟩ n
      = if 1 ≤ (k : ℚ) ∧ (k : ℚ) ≤ ws.val then .ok (derivedWindow ws n)
        else .valueError := by
  have hw := checkWindow_ok ws n hws
  have h1 : ((0:ℚ) < 3/40 ∧ (3:ℚ)/40 < 1/2) := by norm_num
  have h2 : ((0:ℚ) < 17/20 ∧ (17:ℚ)/20 < 1) := by norm_num
  simp only [checkParams, hw, checkGroupsInt, if_pos h1, if_pos h2]
  by_cases hcnd : 1 ≤ (k : ℚ) ∧ (k : ℚ) ≤ ws.val
  · rw [if_pos hcnd, if_pos hcnd]
  · rw [if_neg hcnd, if_neg hcnd]

theorem checkParams_glist (ws : PyNum) (n : ℕ) (gs : List (List PyNum))
    (hws : windowSizeOk ws n) (hne : gs ≠ []) :
    checkParams ⟨ws, .glist gs, .pfloat (3/40), .pfloat (17/20)⟩ n
      = if (∀ g ∈ gs, ∀ e ∈ g, entryInRange (arangeSize ws) e)
          ∧ (∀ g ∈ gs, ∀ e ∈ g, e.isInt = true)
        then .ok (derivedWindow ws n) else .valueError := by
  have hw := checkWindow_ok ws n hws
  have h1 : ((0:ℚ) < 3/40 ∧ (3:ℚ)/40 < 1/2) := by norm_num
  have h2 : ((0:ℚ) < 17/20 ∧ (17:ℚ)/20 < 1) := by norm_num
  simp only [checkParams, hw, checkGroupsList, if_pos h1, if_pos h2, if_neg hne]
  by_cases hcnd : (∀ g ∈ gs, ∀ e ∈ g, entryInRange (arangeSize ws) e)
      ∧ (∀ g ∈ gs, ∀ e ∈ g, e.isInt = true)
  · rw [if_pos hcnd, if_pos hcnd]
  · rw [if_neg hcnd, if_neg hcnd]

/-- C7 counterexample: with float `window_size = 0.5` and
`n_timestamps = 20` the derived embedding window length is `10`, and
`groups = 3` satisfies `1 ≤ 3 ≤ 10`; yet `_check_params` raises
`ValueError`, because it compares `groups` against the raw parameter
value `0.5`, not the derived window length. -/
theorem groups_int_validation_counterexample :
    checkParams ⟨.pfloat (1/2), .gint 3, .pfloat (3/40), .pfloat (17/20)⟩ 20
      = .valueError ∧
    derivedWindow (.pfloat (1/2)) 20 = 10 ∧
    ((1 : ℤ) ≤ 3 ∧ (3 : ℤ) ≤ 10) := by
  refine ⟨?_, ?_, by norm_num⟩
  · simp [checkParams, checkWindow, checkGroupsInt, PyNum.val]
    norm_num
  · simp [derivedWindow]
    norm_num
    decide

/-- C7 amended: for any valid `window_size` parameter (other parameters at
their defaults), integer-`groups` validation succeeds exactly when
`1 ≤ k` and `k` is at most the *raw* `window_size` parameter value —
which coincides with the embedding window length only when `window_size`
is an integer; any other `k` signals `ValueError` (and validation happens
before any numerical computation). -/
theorem groups_int_validation_amended (ws : PyNum) (n : ℕ) (k : ℤ)
    (hws : windowSizeOk ws n) :
    (checkParams ⟨ws, .gint k, .pfloat (3/40), .pfloat (17/20)⟩ n
        = .ok (derivedWindow ws n) ↔ (1 ≤ (k : ℚ) ∧ (k : ℚ) ≤ ws.val)) ∧
    (¬(1 ≤ (k : ℚ) ∧ (k : ℚ) ≤ ws.val) →
      checkParams ⟨ws, .gint k, .pfloat (3/40), .pfloat (17/20)⟩ n
        = .valueError) := by
  have h := checkParams_gint ws n k hws
  constructor
  · rw [h]
    by_cases hcnd : 1 ≤ (k : ℚ) ∧ (k : ℚ) ≤ ws.val
    · simp [hcnd]
    · simp [hcnd]
  · intro hcnd
    rw [h, if_neg hcnd]

theorem groups_int_validation_amended_witness :
    windowSizeOk (.pint 5) 10 ∧
    ((checkParams ⟨.pint 5, .gint 3, .pfloat (3/40), .pfloat (17/20)⟩ 10
        = .ok (derivedWindow (.pint 5) 10)
      ↔ (1 ≤ ((3 : ℤ) : ℚ) ∧ ((3 : ℤ) : ℚ) ≤ (PyNum.pint 5).val)) ∧
    (¬(1 ≤ ((3 : ℤ) : ℚ) ∧ ((3 : ℤ) : ℚ) ≤ (PyNum.pint 5).val) →
      checkParams ⟨.pint 5, .gint 3, .pfloat (3/40), .pfloat (17/20)⟩ 10
        = .valueError)) :=
  ⟨by decide, groups_int_validation_amended (.pint 5) 10 3 (by decide)⟩

/-- C8: with an integer `window_size` in range and otherwise-default
parameters, an explicit list-of-index-lists `groups` parameter: any entry
whose value is outside `[0, window_size)` (in particular the index
`window_size` itself) raises `ValueError`; any non-integer-typed entry
raises `ValueError`; and every nonempty list whose entries are all
integers in range — overlapping groups and omitted indices included — is
accepted without error. -/
theorem explicit_groups_validation (w n : ℕ) (gs : List (List PyNum))
    (h2 : 2 ≤ w) (hn : w ≤ n) (hne : gs ≠ []) :
    ((∃ g ∈ gs, ∃ e ∈ g, ¬entryInRange w e) →
      checkParams ⟨.pint (w : ℤ), .glist gs, .pfloat (3/40), .pfloat (17/20)⟩ n
        = .valueError) ∧
    ((∃ g ∈ gs, ∃ e ∈ g, e.isInt = false) →
      checkParams ⟨.pint (w : ℤ), .glist gs, .pfloat (3/40), .pfloat (17/20)⟩ n
        = .valueError) ∧
    ((∀ g ∈ gs, ∀ e ∈ g, entryInRange w e ∧ e.isInt = true) →
      checkParams ⟨.pint (w : ℤ), .glist gs, .pfloat (3/40), .pfloat (17/20)⟩ n
        = .ok w) := by
  have hws : windowSizeOk (.pint (w : ℤ)) n := by
    constructor
    · exact_mod_cast h2
    · exact_mod_cast hn
  have har : arangeSize (.pint (w : ℤ)) = w := by simp [arangeSize]
  have hdw : derivedWindow (.pint (w : ℤ)) n = w := by simp [derivedWindow]
  have hrw := checkParams_glist (.pint (w : ℤ)) n gs hws hne
  rw [har, hdw] at hrw
  refine ⟨?_, ?_, ?_⟩
  · intro hbad
    have hnc : ¬((∀ g ∈ gs, ∀ e ∈ g, entryInRange w e)
        ∧ (∀ g ∈ gs, ∀ e ∈ g, e.isInt = true)) := by
      intro hcnd
      obtain ⟨g, hg, e, he, hni⟩ := hbad
      exact hni (hcnd.1 g hg e he)
    rw [hrw, if_neg hnc]
  · intro hbad
    have hnc : ¬((∀ g ∈ gs, ∀ e ∈ g, entryInRange w e)
        ∧ (∀ g ∈ gs, ∀ e ∈ g, e.isInt = true)) := by
      intro hcnd
      obtain ⟨g, hg, e, he, hni⟩ := hbad
      rw [hcnd.2 g hg e he] at hni
      exact Bool.noConfusion hni
    rw [hrw, if_neg hnc]
  · intro hok
    rw [hrw, if_pos ⟨fun g hg e he => (hok g hg e he).1,
      fun g hg e he => (hok g hg e he).2⟩]

theorem explicit_groups_validation_witness :
    (2 ≤ 3 ∧ 3 ≤ 5 ∧
      ([[PyNum.pint 0, PyNum.pint 1], [PyNum.pint 1, PyNum.pint 3]]
        : List (List PyNum)) ≠ []) ∧
    checkParams ⟨.pint (3 : ℤ),
        .glist [[.pint 0, .pint 1], [.pint 1, .pint 3]],
        .pfloat (3/40), .pfloat (17/20)⟩ 5 = .valueError := by
  refine ⟨⟨by norm_num, by norm_num, by simp⟩, ?_⟩
  refine (explicit_groups_validation 3 5
    [[.pint 0, .pint 1], [.pint 1, .pint 3]]
    (by norm_num) (by norm_num) (by simp)).1 ?_
  refine ⟨[.pint 1, .pint 3], by simp, .pint 3, by simp, ?_⟩
  intro hin
  obtain ⟨i, hi, hv⟩ := hin
  rw [Finset.mem_range] at hi
  simp only [PyNum.val] at hv
  have : i = 3 := by exact_mod_cast hv
  omega

/-- C9: integer `window_size = 1` and `window_size = n_timestamps + 1`
both raise `ValueError` for every input length, while the float fraction
`window_size = 0.5` succeeds with derived window size
`max(2, ceil(0.5 * n_timestamps))` — the ceiling clamped to at least 2. -/
theorem window_size_bounds (n : ℕ) :
    checkParams ⟨.pint 1, .gnone, .pfloat (3/40), .pfloat (17/20)⟩ n
      = .valueError ∧
    checkParams ⟨.pint ((n : ℤ) + 1), .gnone, .pfloat (3/40), .pfloat (17/20)⟩ n
      = .valueError ∧
    checkParams ⟨.pfloat (1/2), .gnone, .pfloat (3/40), .pfloat (17/20)⟩ n
      = .ok (max 2 (Int.ceil ((1/2 : ℚ) * (n : ℚ))).toNat) := by
  refine ⟨?_, ?_, ?_⟩
  · have hno : ¬((2:ℤ) ≤ 1 ∧ (1:ℤ) ≤ (n:ℤ)) := by omega
    simp [checkParams, checkWindow, hno]
  · have hno : ¬((2:ℤ) ≤ (n:ℤ) + 1 ∧ (n:ℤ) + 1 ≤ (n:ℤ)) := by omega
    simp [checkParams, checkWindow, hno]
  · have h0 : ((0:ℚ) < 1/2 ∧ (1:ℚ)/2 ≤ 1) := by norm_num
    have h1 : ((0:ℚ) < 3/40 ∧ (3:ℚ)/40 < 1/2) := by norm_num
    have h2 : ((0:ℚ) < 17/20 ∧ (17:ℚ)/20 < 1) := by norm_num
    simp only [checkParams, checkWindow, if_pos h0, if_pos h1, if_pos h2]

/-- C10: the frequency parameters are validated on every call whatever the
grouping policy: with a valid `window_size` and `groups` equal to `None`,
an integer, or an explicit list, a non-float `lower_frequency_bound`
raises `TypeError` and a float one outside `(0, 0.5)` raises `ValueError`;
with the bound valid, a non-float `lower_frequency_contribution` raises
`TypeError` and a float one outside `(0, 1)` raises `ValueError` — even
though these parameters are only used when `groups='auto'`. -/
theorem frequency_params_always_validated (ws : PyNum) (n : ℕ) (gs : GroupsParam)
    (b c : PyNum) (hws : windowSizeOk ws n)
    (_hgs : gs = .gnone ∨ (∃ k, gs = .gint k) ∨ ∃ l, gs = .glist l) :
    (b.isInt = true → checkParams ⟨ws, gs, b, c⟩ n = .typeError) ∧
    (∀ q, b = .pfloat q → ¬(0 < q ∧ q < 1/2) →
      checkParams ⟨ws, gs, b, c⟩ n = .valueError) ∧
    (∀ q, b = .pfloat q → (0 < q ∧ q < 1/2) → c.isInt = true →
      checkParams ⟨ws, gs, b, c⟩ n = .typeError) ∧
    (∀ q q', b = .pfloat q → (0 < q ∧ q < 1/2) → c = .pfloat q' →
      ¬(0 < q' ∧ q' < 1) → checkParams ⟨ws, gs, b, c⟩ n = .valueError) := by
  have hw := checkWindow_ok ws n hws
  refine ⟨?_, ?_, ?_, ?_⟩
  · intro hb
    cases b with
    | pint bv => simp [checkParams, hw]
    | pfloat q => simp [PyNum.isInt] at hb
  · intro q hbq hqv
    subst hbq
    simp only [checkParams, hw]
    rw [if_neg hqv]
  · intro q hbq hq hc
    cases c with
    | pint cv =>
        subst hbq
        simp only [checkParams, hw]
        rw [if_pos hq]
    | pfloat q' => simp [PyNum.isInt] at hc
  · intro q q' hbq hq hcq hq'
    subst hbq
    subst hcq
    simp only [checkParams, hw]
    rw [if_pos hq, if_neg hq']

theorem frequency_params_always_validated_witness :
    windowSizeOk (.pint 4) 10 ∧
    (GroupsParam.gint 0 = .gnone ∨ (∃ k, GroupsParam.gint 0 = .gint k)
      ∨ ∃ l, GroupsParam.gint 0 = .glist l) ∧
    checkParams ⟨.pint 4, .gint 0, .pint 0, .pfloat (17/20)⟩ 10 = .typeError :=
  ⟨by decide, Or.inr (Or.inl ⟨0, rfl⟩),
    (frequency_params_always_validated (.pint 4) 10 (.gint 0) (.pint 0)
      (.pfloat (17/20)) (by decide) (Or.inr (Or.inl ⟨0, rfl⟩))).1 rfl⟩
